import Mathlib

/-!
Verification of the ForgeCore / Starlinker repository against its
natural-language specification.  Each section is a shallow embedding of one
component of the source tree, translated from the Python sources:

* forgecore/capabilities.py        (CapabilityRegistry, Provider)
* forgecore/loader.py              (ModuleLoader enable/disable lifecycle)
* forgecore/starlinker_news/alerts.py   (AlertsService, DigestService)
* forgecore/starlinker_news/store.py    (StarlinkerDatabase)

Machine integers are modelled as Nat / Int (no overflow is relevant here),
fallible Python code is modelled with Option / Except, and the process state
mutated by a method is passed and returned explicitly.
-/

namespace Capabilities

/-! ## forgecore/capabilities.py

A version (packaging.version.Version) is modelled by its release segments,
a list of naturals; the repository only ever binds plain dotted numeric
releases (for example 1.0 or 1.5.0).  packaging compares releases by padding
the shorter one with zeros, which is what verCmp implements. -/

/-- Comparison of the all-zero padding against the remaining segments of the
longer release (the case in which the left release is exhausted). -/
def verCmpR : List Nat → Ordering
  | [] => Ordering.eq
  | b :: bs =>
      match compare 0 b with
      | Ordering.eq => verCmpR bs
      | o => o

/-- Comparison of two release-segment lists, padding the shorter list with
zeros exactly as packaging.version does (so 1.0 equals 1.0.0). -/
def verCmp : List Nat → List Nat → Ordering
  | [], b => verCmpR b
  | a :: as, [] =>
      match compare a 0 with
      | Ordering.eq => verCmp as []
      | o => o
  | a :: as, b :: bs =>
      match compare a b with
      | Ordering.eq => verCmp as bs
      | o => o

/-- Version equality (packaging semantics). -/
def verEq (a b : List Nat) : Bool := decide (verCmp a b = Ordering.eq)

/-- Strict version order (packaging semantics). -/
def verLt (a b : List Nat) : Bool := decide (verCmp a b = Ordering.lt)

/-- A Python object bound as a provider.  The repository binds arbitrary
objects; for the ordering semantics of the Provider dataclass only two
behaviours matter: objects that support comparison with each other
(modelled by intVal, compared by value) and plain objects without an
ordering protocol (modelled by object, equal only by identity, whose
comparison raises TypeError). -/
inductive PyObj where
  | intVal (n : Int)
  | object (oid : Nat)
deriving DecidableEq, Repr

/-- Python equality of two provider objects: ints by value, plain objects
by identity. -/
def pyEq : PyObj → PyObj → Bool
  | PyObj.intVal a, PyObj.intVal b => decide (a = b)
  | PyObj.object a, PyObj.object b => decide (a = b)
  | _, _ => false

/-- Python ordering of two provider objects.  Ints compare by value; any
comparison involving a plain object raises TypeError, modelled by an
Except error. -/
def pyLtE : PyObj → PyObj → Except Unit Bool
  | PyObj.intVal a, PyObj.intVal b => Except.ok (decide (a < b))
  | _, _ => Except.error ()

/-- forgecore/capabilities.py, Provider: a dataclass declared with
order equal to True over the fields (version, obj, order). -/
structure Provider where
  version : List Nat
  obj : PyObj
  order : Nat
deriving DecidableEq, Repr

/-- The generated Provider dataclass comparison: lexicographic over
(version, obj, order), exactly as Python tuple comparison proceeds —
compare versions first, and only if they are equal move on to the obj
field (whose comparison may raise TypeError), then the counter. -/
def provLtE (a b : Provider) : Except Unit Bool :=
  if verEq a.version b.version then
    if pyEq a.obj b.obj then Except.ok (decide (a.order < b.order))
    else pyLtE a.obj b.obj
  else Except.ok (verLt a.version b.version)

/-- Insert a provider into an already sorted list using the fallible
dataclass comparison. -/
def insertSortedE (p : Provider) : List Provider → Except Unit (List Provider)
  | [] => Except.ok [p]
  | q :: qs => do
      let lt ← provLtE p q
      if lt then
        Except.ok (p :: q :: qs)
      else do
        let rest ← insertSortedE p qs
        Except.ok (q :: rest)

/-- Model of list.sort with the Provider dataclass comparison.  CPython's
sort is a comparison sort calling the same lt method; whenever every needed
comparison succeeds the result is the unique sorted permutation (the keys
(version, obj, order) are strictly ordered because the order counters are
distinct), and it raises TypeError exactly when a performed comparison
raises.  A stable insertion sort has the same observable behaviour for the
registry states considered here. -/
def sortE : List Provider → Except Unit (List Provider)
  | [] => Except.ok []
  | p :: ps => do
      let rest ← sortE ps
      insertSortedE p rest

/-- Python error kinds raised by the registry code: TypeError from an
unsupported comparison, ValueError / InvalidVersion / InvalidSpecifier from
parsing. -/
inductive PyErr where
  | typeError
  | valueError
deriving DecidableEq, Repr

/-- Helper for the Python pattern s.split(c, 1): split a string at the first
occurrence of a character, or none when the character does not occur. -/
def splitFirstAux (c : Char) : List Char → Option (List Char × List Char)
  | [] => none
  | x :: xs =>
      if x = c then some ([], xs)
      else (splitFirstAux c xs).map (fun r => (x :: r.1, r.2))

/-- String version of splitFirstAux. -/
def splitFirst (s : String) (c : Char) : Option (String × String) :=
  (splitFirstAux c s.data).map (fun r => (String.mk r.1, String.mk r.2))

/-- Python str.split on a single character (all occurrences). -/
def splitOnChar (c : Char) : List Char → List (List Char)
  | [] => [[]]
  | x :: xs =>
      let r := splitOnChar c xs
      if x = c then [] :: r
      else
        match r with
        | [] => [[x]]
        | y :: ys => (x :: y) :: ys

/-- Python int(s) on a digit string: the represented natural, or none for
anything int() would reject. -/
def charsToNat? (cs : List Char) : Option Nat :=
  if cs = [] then none
  else if cs.all (fun c => c.isDigit) then
    some (cs.foldl (fun n c => n * 10 + (c.toNat - 48)) 0)
  else none

/-- Python str.startswith. -/
def strStartsWith (s pre : String) : Bool :=
  pre.data.isPrefixOf s.data

/-- packaging.version.Version parsing, restricted to the dotted numeric
releases used by this repository; anything else raises InvalidVersion,
modelled by none. -/
def parseVer (s : String) : Option (List Nat) :=
  (splitOnChar '.' s.data).mapM charsToNat?

/-- forgecore/capabilities.py, CapabilityRegistry state: the name-keyed
provider lists (a Python dict, modelled as an insertion-ordered association
list) and the monotonic insertion counter. -/
structure Registry where
  providers : List (String × List Provider)
  counter : Nat
deriving DecidableEq, Repr

/-- Dict lookup with a default empty list (self.providers.get(name, [])). -/
def lookupProviders (r : List (String × List Provider)) (name : String) :
    List Provider :=
  (List.lookup name r).getD []

/-- Dict update: replace the list stored under name, or append a new entry
(Python dicts preserve insertion order). -/
def updateProviders (r : List (String × List Provider)) (name : String)
    (v : List Provider) : List (String × List Provider) :=
  if (List.lookup name r).isSome then
    r.map (fun p => if p.1 = name then (name, v) else p)
  else r ++ [(name, v)]

/-- CapabilityRegistry.bind: split the capability at the first at-sign
(raising ValueError when absent), parse the version, append a Provider
carrying the current counter, and re-sort the name's list with the
dataclass comparison (which may raise TypeError). -/
def bind (r : Registry) (capability : String) (provider : PyObj) :
    Except PyErr Registry := do
  match splitFirst capability '@' with
  | none => Except.error PyErr.valueError
  | some (name, verStr) =>
    match parseVer verStr with
    | none => Except.error PyErr.valueError
    | some ver =>
      let prov : Provider := ⟨ver, provider, r.counter⟩
      match sortE (lookupProviders r.providers name ++ [prov]) with
      | Except.error _ => Except.error PyErr.typeError
      | Except.ok sorted =>
          Except.ok ⟨updateProviders r.providers name sorted, r.counter + 1⟩

/-- The comparison operators of the specifier grammar the repository uses
(greater-equal, less-equal, greater, less, exact). -/
inductive SpecOp where
  | ge
  | le
  | gt
  | lt
  | eqc
deriving DecidableEq, Repr

/-- Whether a release version satisfies one specifier clause.  For the plain
release versions this repository binds, packaging specifier membership is
the padded version comparison. -/
def satClause (v : List Nat) : SpecOp × List Nat → Bool
  | (SpecOp.ge, w) => !(verLt v w)
  | (SpecOp.le, w) => !(verLt w v)
  | (SpecOp.gt, w) => verLt w v
  | (SpecOp.lt, w) => verLt v w
  | (SpecOp.eqc, w) => verEq v w

/-- Whether a version satisfies every clause of a specifier set. -/
def satSpec (cs : List (SpecOp × List Nat)) (v : List Nat) : Bool :=
  cs.all (satClause v)

/-- Parse one clause of a comma-combined specifier string. -/
def parseClause (t : String) : Option (SpecOp × List Nat) :=
  if strStartsWith t ">=" then (parseVer (t.drop 2)).map (fun v => (SpecOp.ge, v))
  else if strStartsWith t "<=" then (parseVer (t.drop 2)).map (fun v => (SpecOp.le, v))
  else if strStartsWith t "==" then (parseVer (t.drop 2)).map (fun v => (SpecOp.eqc, v))
  else if strStartsWith t ">" then (parseVer (t.drop 1)).map (fun v => (SpecOp.gt, v))
  else if strStartsWith t "<" then (parseVer (t.drop 1)).map (fun v => (SpecOp.lt, v))
  else none

/-- SpecifierSet parsing for the range grammar documented by the spec
(comma-combined clauses); anything else raises InvalidSpecifier. -/
def parseSpecSet (s : String) : Option (List (SpecOp × List Nat)) :=
  (s.splitOn ",").mapM parseClause

/-- The caret rewrite in CapabilityRegistry.get: a spec starting with a caret
becomes the two clauses at-least base and less-than (major+1).0, where major
is the first release segment of the base. -/
def caretClauses (base : List Nat) : List (SpecOp × List Nat) :=
  [(SpecOp.ge, base), (SpecOp.lt, [base.headD 0 + 1, 0])]

/-- The selection loop at the end of CapabilityRegistry.get: scan the
providers, keeping the candidate with the greatest version, preferring the
smaller insertion counter when versions are equal. -/
def bestGo (cs : List (SpecOp × List Nat)) :
    List Provider → Option Provider → Option Provider
  | [], best => best
  | p :: ps, best =>
      if satSpec cs p.version then
        match best with
        | none => bestGo cs ps (some p)
        | some b =>
            if verLt b.version p.version ||
                (verEq p.version b.version && decide (p.order < b.order)) then
              bestGo cs ps (some p)
            else
              bestGo cs ps (some b)
      else bestGo cs ps best

/-- The specifier branch of CapabilityRegistry.get. -/
def bestMatch (providers : List Provider) (cs : List (SpecOp × List Nat)) :
    Option PyObj :=
  (bestGo cs providers none).map (fun p => p.obj)

/-- The exact-version branch of CapabilityRegistry.get: first provider whose
version equals the query. -/
def findExact : List Provider → List Nat → Option PyObj
  | [], _ => none
  | p :: ps, v => if verEq p.version v then some p.obj else findExact ps v

/-- CapabilityRegistry.get applied to one name's provider list and the
optional specifier part of the query (none when the query had no at-sign).
Returns none when no provider matches and raises on malformed versions or
specifiers — but the code checks for an empty provider list before looking
at the specifier at all. -/
def capGetList (providers : List Provider) (spec : Option String) :
    Except PyErr (Option PyObj) :=
  match providers with
  | [] => Except.ok none
  | p :: ps =>
    let lastProv := ps.getLastD p
    match spec with
    | none => Except.ok (some lastProv.obj)
    | some s =>
      if s = "" then Except.ok (some lastProv.obj)
      else if s.front.isDigit then
        match parseVer s with
        | none => Except.error PyErr.valueError
        | some ver => Except.ok (findExact (p :: ps) ver)
      else if strStartsWith s "^" then
        match parseVer (s.drop 1) with
        | none => Except.error PyErr.valueError
        | some base => Except.ok (bestMatch (p :: ps) (caretClauses base))
      else
        match parseSpecSet s with
        | none => Except.error PyErr.valueError
        | some cs => Except.ok (bestMatch (p :: ps) cs)

/-- CapabilityRegistry.get: split the query at the first at-sign (no at-sign
means a bare name) and resolve against the name's provider list. -/
def get (r : Registry) (query : String) : Except PyErr (Option PyObj) :=
  match splitFirst query '@' with
  | none => capGetList (lookupProviders r.providers query) none
  | some (name, s) => capGetList (lookupProviders r.providers name) (some s)

/-- The empty registry (CapabilityRegistry constructor). -/
def emptyRegistry : Registry := ⟨[], 0⟩

/-! Order-theoretic facts about the padded version comparison. -/

end Capabilities

namespace Loader

/-! ## forgecore/loader.py

The enable/disable lifecycle of ModuleLoader.  A module instance is
characterised by which hooks it defines and whether its on_disable hook
raises when invoked; the loader state is the name-keyed module map plus the
recorded enable order. -/

/-- The loader-relevant shape of a module instance together with its
ModuleState.enabled flag. -/
structure ModState where
  hasOnEnable : Bool
  hasOnDisable : Bool
  disableRaises : Bool
  enabled : Bool
deriving DecidableEq, Repr

/-- Which lifecycle hook an invocation trace entry records. -/
inductive Hook where
  | enable
  | disable
deriving DecidableEq, Repr

/-- ModuleLoader state: self.modules (a dict, modelled as an
insertion-ordered association list) and self.enable_order. -/
structure LoaderState where
  modules : List (String × ModState)
  enableOrder : List String
deriving DecidableEq, Repr

/-- Set the enabled flag of the named module. -/
def setEnabled (l : List (String × ModState)) (name : String) (b : Bool) :
    List (String × ModState) :=
  l.map (fun p => if p.1 = name then (p.1, { p.2 with enabled := b }) else p)

/-- ModuleLoader.disable_module: look the name up with dict.get; when the
module exists, is enabled and its instance defines on_disable, invoke the
hook and then clear the enabled flag.  The hook invocation is recorded in
the trace; when the hook raises, the exception propagates before
mod.enabled is assigned, so the flag stays set.  Returns the new state, the
trace of hook invocations, and whether an exception escaped. -/
def disableModule (st : LoaderState) (name : String) :
    LoaderState × List (String × Hook) × Bool :=
  match List.lookup name st.modules with
  | none => (st, [], false)
  | some m =>
      if m.enabled && m.hasOnDisable then
        if m.disableRaises then (st, [(name, Hook.disable)], true)
        else
          ({ st with modules := setEnabled st.modules name false },
            [(name, Hook.disable)], false)
      else (st, [], false)

/-- The loop of ModuleLoader.disable_all over the reversed enable order; a
raised exception propagates out of the for loop, so the remaining names are
not visited. -/
def disableAllGo (st : LoaderState) :
    List String → LoaderState × List (String × Hook) × Bool
  | [] => (st, [], false)
  | n :: ns =>
      let r := disableModule st n
      if r.2.2 then (r.1, r.2.1, true)
      else
        let rest := disableAllGo r.1 ns
        (rest.1, r.2.1 ++ rest.2.1, rest.2.2)

/-- ModuleLoader.disable_all: walk the recorded enable order in reverse,
then clear it — the clear is reached only when no hook raised. -/
def disableAll (st : LoaderState) :
    LoaderState × List (String × Hook) × Bool :=
  let r := disableAllGo st st.enableOrder.reverse
  if r.2.2 then r
  else ({ r.1 with enableOrder := [] }, r.2.1, false)

/-- ModuleLoader.enable_module: self.modules[name] raises KeyError for an
unknown name (modelled by none); an already-enabled module returns with no
hook invocation; otherwise on_enable is invoked when defined, the flag is
set and the name appended to the enable order. -/
def enableModule (st : LoaderState) (name : String) :
    Option (LoaderState × List (String × Hook)) :=
  match List.lookup name st.modules with
  | none => none
  | some m =>
      if m.enabled then some (st, [])
      else
        some
          ({ st with
              modules := setEnabled st.modules name true,
              enableOrder := st.enableOrder ++ [name] },
            if m.hasOnEnable then [(name, Hook.enable)] else [])

end Loader

namespace Starlinker

/-! ## forgecore/starlinker_news/alerts.py and store.py

Instants (datetime values) are modelled as minutes since an epoch (Int);
timezone resolution (ZoneInfo) is a table from names to fixed offsets in
minutes, with none modelling ZoneInfoNotFoundError.  Message rendering is
elided: none of the claims depend on a message body, only on which
channels were attempted and what rows were recorded. -/

/-- A Python datetime.time restricted to the hour/minute granularity the
code constructs; comparison is lexicographic like Python's. -/
structure TimeHM where
  hour : Nat
  minute : Nat
deriving DecidableEq, Repr

/-- Python time ordering, at most. -/
def timeLe (a b : TimeHM) : Bool :=
  decide (a.hour < b.hour) ||
    (decide (a.hour = b.hour) && decide (a.minute ≤ b.minute))

/-- Python time ordering, strictly below. -/
def timeLt (a b : TimeHM) : Bool :=
  decide (a.hour < b.hour) ||
    (decide (a.hour = b.hour) && decide (a.minute < b.minute))

/-- AlertsService parse_time: split the value at the first colon and build
a time from the two int() calls; any failure (no colon, non-numeric parts,
out-of-range fields) raises, modelled by none. -/
def parseTime (value : String) : Option TimeHM :=
  match Capabilities.splitFirst value ':' with
  | none => none
  | some (hs, ms) => do
      let h ← Capabilities.charsToNat? hs.data
      let m ← Capabilities.charsToNat? ms.data
      if h < 24 && m < 60 then some ⟨h, m⟩ else none

/-- The outputs subtree of StarlinkerConfig. -/
structure OutputsCfg where
  discordWebhook : String
  emailTo : String
deriving DecidableEq, Repr

/-- The StarlinkerConfig fields the alert and digest services read. -/
structure StarlinkerConfig where
  timezone : String
  quietHours : List String
  outputs : OutputsCfg
deriving DecidableEq, Repr

/-- Python str.strip with no argument: drop ASCII whitespace at both
ends. -/
def pyStrip (s : String) : String :=
  String.mk
    (((s.data.dropWhile Char.isWhitespace).reverse.dropWhile
        Char.isWhitespace).reverse)

/-- The local wall-clock minute-of-day of an instant under a fixed-offset
zone, with the ZoneInfoNotFoundError fallback to UTC. -/
def localMinutes (tz : String → Option Int) (tzName : String)
    (moment : Int) : Nat :=
  ((moment + (tz tzName).getD 0) % 1440).toNat

/-- moment.astimezone(tz).time() at hour/minute granularity. -/
def localTimeOf (tz : String → Option Int) (tzName : String)
    (moment : Int) : TimeHM :=
  ⟨localMinutes tz tzName moment / 60, localMinutes tz tzName moment % 60⟩

/-- AlertsService in_quiet_hours: no window (anything but exactly two
entries) is never quiet; otherwise parse both bounds as local times (a
parse failure raises, modelled by none), convert the moment to the
configured zone falling back to UTC, and test the window — plain interval
when start is at most end, wrapping past midnight otherwise. -/
def inQuietHours (tz : String → Option Int) (cfg : StarlinkerConfig)
    (moment : Int) : Option Bool :=
  match cfg.quietHours with
  | [s, e] => do
      let st ← parseTime s
      let en ← parseTime e
      let current := localTimeOf tz cfg.timezone moment
      if timeLe st en then some (timeLe st current && timeLt current en)
      else some (timeLe st current || timeLt current en)
  | _ => some false

/-- A row of the signals table (store.py StoredSignal); the autoincrement
id is irrelevant to every claim and elided. -/
structure StoredSignal where
  source : String
  title : String
  url : String
  publishedAt : Int
  fetchedAt : Int
  summary : Option String
  rawExcerpt : Option String
  tags : List String
  priority : Int
deriving DecidableEq, Repr

/-- A row of the alerts table. -/
structure AlertRow where
  createdAt : Int
  type : String
  title : String
  url : Option String
  channels : List String
  dedupKey : String
deriving DecidableEq, Repr

/-- A row of the digests table; body_markdown is render-only and elided. -/
structure DigestRow where
  sentAt : Int
  type : String
deriving DecidableEq, Repr

/-- A row of the errors table; the details payload is represented by the
channel tag the dispatch code puts into it. -/
structure ErrorRow where
  module : String
  message : String
  channel : Option String
deriving DecidableEq, Repr

/-- The StarlinkerDatabase state the services touch. -/
structure Db where
  signals : List StoredSignal
  alerts : List AlertRow
  digests : List DigestRow
  errors : List ErrorRow
deriving DecidableEq, Repr

/-- StarlinkerDatabase.alert_exists: select by dedup_key. -/
def alertExists (db : Db) (dedupKey : String) : Bool :=
  db.alerts.any (fun r => r.dedupKey == dedupKey)

/-- StarlinkerDatabase.record_alert: insert a row. -/
def recordAlert (db : Db) (row : AlertRow) : Db :=
  { db with alerts := db.alerts ++ [row] }

/-- StarlinkerDatabase.record_error: insert a row. -/
def recordError (db : Db) (module message : String)
    (channel : Option String) : Db :=
  { db with errors := db.errors ++ [⟨module, message, channel⟩] }

/-- StarlinkerDatabase.record_digest: insert a row. -/
def recordDigest (db : Db) (digestType : String) (sentAt : Int) : Db :=
  { db with digests := db.digests ++ [⟨sentAt, digestType⟩] }

/-- Stable insertion used to model Python's stable sorts. -/
def insertStable {α : Type} (le : α → α → Bool) (x : α) :
    List α → List α
  | [] => [x]
  | y :: ys => if le x y then x :: y :: ys else y :: insertStable le x ys

/-- Python's sorted and list.sort are stable; for the total Boolean
preorders used here a stable insertion sort computes the same list. -/
def sortStable {α : Type} (le : α → α → Bool) : List α → List α
  | [] => []
  | x :: xs => insertStable le x (sortStable le xs)

/-- StarlinkerDatabase.fetch_signals with a since bound: rows with
fetched_at at least since, ordered by published_at descending (the stored
UTC ISO-8601 strings compare chronologically). -/
def fetchSignals (db : Db) (since : Int) : List StoredSignal :=
  sortStable (fun a b => decide (b.publishedAt ≤ a.publishedAt))
    (db.signals.filter (fun s => decide (since ≤ s.fetchedAt)))

/-- Substring test on character lists (the Python in operator on str). -/
def listContains (pat : List Char) : List Char → Bool
  | [] => pat.isEmpty
  | c :: rest => pat.isPrefixOf (c :: rest) || listContains pat rest

/-- Python: pat in s. -/
def strContains (s pat : String) : Bool :=
  listContains pat.data s.data

/-- Python str.lower (ASCII, which is all the scoring rules use). -/
def strToLower (s : String) : String :=
  String.mk (s.data.map Char.toLower)

/-- AlertsService score_signal: start from the stored priority and raise
it to the tag and title floors. -/
def scoreSignal (s : StoredSignal) : Int :=
  let p0 := s.priority
  let tags := s.tags.map strToLower
  let p1 := if tags.contains "live" then max p0 80 else p0
  let p2 := if tags.contains "ptu" then max p1 50 else p1
  let lowered := strToLower s.title
  let p3 :=
    if strContains lowered "hotfix" || strContains lowered "critical" then
      max p2 85
    else p2
  let p4 :=
    if strContains lowered "roadmap" || strContains lowered "status" then
      max p3 60
    else p3
  p4

/-- AlertsService build_dedup_key: source, colon, lowercased url. -/
def buildDedupKey (s : StoredSignal) : String :=
  s.source ++ ":" ++ strToLower s.url

/-- alerts.py AlertCandidate. -/
structure AlertCandidate where
  signal : StoredSignal
  priority : Int
  dedupKey : String
deriving DecidableEq, Repr

/-- Descending lexicographic comparison on (priority, published_at), the
key of the candidate sort (reverse order, stable on ties). -/
def candKeyGe (a b : AlertCandidate) : Bool :=
  decide (b.priority < a.priority) ||
    (decide (a.priority = b.priority) &&
      decide (b.signal.publishedAt ≤ a.signal.publishedAt))

/-- AlertsService collect_candidates: fetch the window, score, drop the
rows below threshold or with an existing alert for their dedup key, and
sort by (priority, published_at) descending. -/
def collectCandidates (db : Db) (triggeredAt window minPriority : Int) :
    List AlertCandidate :=
  let signals := fetchSignals db (triggeredAt - window)
  let cands := signals.filterMap (fun s =>
    let priority := scoreSignal s
    if priority < minPriority then none
    else
      let key := buildDedupKey s
      if alertExists db key then none
      else some ⟨s, priority, key⟩)
  sortStable candKeyGe cands

/-- The per-run outcome dictionary of AlertsService.run. -/
structure RunResult where
  alerts : Nat
  suppressed : Bool
deriving DecidableEq, Repr

/-- One candidate's trip through the dispatch loop of run_locked.  The
channel outcomes are oracles indexed by the candidate's position: none is
a successful delivery, some msg an exception escaping the channel call
(for Discord, post_discord raises on transport errors and, via
raise_for_status, on any non-2xx response).  Returns the updated database,
whether an alert row was recorded, and the trace of attempted channel
dispatches. -/
def dispatchCandidate (cfg : StarlinkerConfig) (db : Db)
    (triggeredAt : Int) (idx : Nat) (cand : AlertCandidate)
    (discordOutcome emailOutcome : Nat → Option String) :
    Db × Bool × List (String × Nat) :=
  let webhook := pyStrip cfg.outputs.discordWebhook
  let step1 : Db × List String × List (String × Nat) :=
    if webhook ≠ "" then
      match discordOutcome idx with
      | none => (db, ["discord"], [("discord", idx)])
      | some msg =>
          (recordError db "alerts.dispatch" msg (some "discord"), [],
            [("discord", idx)])
    else (db, [], [])
  let emailTo := pyStrip cfg.outputs.emailTo
  let step2 : Db × List String × List (String × Nat) :=
    if emailTo ≠ "" then
      match emailOutcome idx with
      | none => (step1.1, ["email"], [("email", idx)])
      | some msg =>
          (recordError step1.1 "alerts.dispatch" msg (some "email"), [],
            [("email", idx)])
    else (step1.1, [], [])
  let delivered := step1.2.1 ++ step2.2.1
  if delivered.isEmpty then (step2.1, false, step1.2.2 ++ step2.2.2)
  else
    (recordAlert step2.1
        ⟨triggeredAt, "signal", cand.signal.title, some cand.signal.url,
          delivered, cand.dedupKey⟩,
      true, step1.2.2 ++ step2.2.2)

/-- The dispatch loop of run_locked over the sorted candidates. -/
def dispatchAllGo (cfg : StarlinkerConfig) (triggeredAt : Int)
    (discordOutcome emailOutcome : Nat → Option String) :
    List AlertCandidate → Nat → Db → Nat × Db × List (String × Nat)
  | [], _, db => (0, db, [])
  | c :: cs, idx, db =>
      let r := dispatchCandidate cfg db triggeredAt idx c discordOutcome
        emailOutcome
      let rest := dispatchAllGo cfg triggeredAt discordOutcome emailOutcome
        cs (idx + 1) r.1
      ((if r.2.1 then 1 else 0) + rest.1, rest.2.1, r.2.2 ++ rest.2.2)

/-- AlertsService run_locked: collect candidates; an empty set returns
zero alerts unsuppressed; quiet hours return zero alerts suppressed with
nothing dispatched or recorded; otherwise each candidate is dispatched and
the count of recorded alerts returned.  none models an exception escaping
(unparseable quiet-hours strings). -/
def runLocked (cfg : StarlinkerConfig) (db : Db) (triggeredAt : Int)
    (tz : String → Option Int) (window minPriority : Int)
    (discordOutcome emailOutcome : Nat → Option String) :
    Option (RunResult × Db × List (String × Nat)) :=
  let candidates := collectCandidates db triggeredAt window minPriority
  if candidates.isEmpty then some (⟨0, false⟩, db, [])
  else
    match inQuietHours tz cfg triggeredAt with
    | none => none
    | some true => some (⟨0, true⟩, db, [])
    | some false =>
        let r := dispatchAllGo cfg triggeredAt discordOutcome emailOutcome
          candidates 0 db
        some (⟨r.1, false⟩, r.2.1, r.2.2)

/-- Modelled from the spec: the process-wide snooze gate of the alerts
service.  The API routes POST /alerts/snooze to backend.snooze_alerts and
reads backend.alert_status, but the backend in the source tree defines
neither, and AlertsService.run contains no snooze check: the
implementation of the snooze feature is missing from the tree.  Per the
spec, a process-wide instant snoozed_until may be set, and while now is
before snoozed_until, run returns alerts 0 and suppressed true — before
quiet hours are consulted and without dispatching to any channel or
recording any row. -/
def runWithSnooze (snoozedUntil : Option Int) (cfg : StarlinkerConfig)
    (db : Db) (triggeredAt : Int) (tz : String → Option Int)
    (window minPriority : Int)
    (discordOutcome emailOutcome : Nat → Option String) :
    Option (RunResult × Db × List (String × Nat)) :=
  match snoozedUntil with
  | some t =>
      if triggeredAt < t then some (⟨0, true⟩, db, [])
      else runLocked cfg db triggeredAt tz window minPriority
        discordOutcome emailOutcome
  | none => runLocked cfg db triggeredAt tz window minPriority
      discordOutcome emailOutcome

/-- The outcome of the digest service's raw client.post call: a response
with some status code, or an exception (transport failure). -/
inductive PostOutcome where
  | ret (status : Nat)
  | exc (msg : String)
deriving DecidableEq, Repr

/-- The dictionary run_digest returns (the no-signal early return omits
the channels key; it is modelled as the empty list). -/
structure DigestResult where
  digest : String
  sent : Bool
  signals : Nat
  channels : List String
deriving DecidableEq, Repr

/-- DigestService window_for in minutes; an unsupported type raises
ValueError, modelled by none. -/
def windowFor (digestType : String) : Option Int :=
  if digestType = "daily" then some 1440
  else if digestType = "weekly" then some 10080
  else none

/-- DigestService run_locked: generate the window's signals (an empty
window returns sent false with nothing persisted); post to the Discord
webhook when configured — note the returned response's status is never
inspected, only a raised exception counts as failure — then the mailer;
record an error row per failed channel; persist a digest row exactly when
some channel delivered. -/
def digestRunLocked (digestType : String) (cfg : StarlinkerConfig)
    (db : Db) (triggeredAt : Int) (discordPost : PostOutcome)
    (emailOutcome : Option String) : Option (DigestResult × Db) :=
  match windowFor digestType with
  | none => none
  | some w =>
      let signals := fetchSignals db (triggeredAt - w)
      if signals.isEmpty then some (⟨digestType, false, 0, []⟩, db)
      else
        let webhook := pyStrip cfg.outputs.discordWebhook
        let step1 : Db × List String :=
          if webhook ≠ "" then
            match discordPost with
            | PostOutcome.ret _ => (db, ["discord"])
            | PostOutcome.exc msg =>
                (recordError db "digest.dispatch" msg (some "discord"), [])
          else (db, [])
        let emailTo := pyStrip cfg.outputs.emailTo
        let step2 : Db × List String :=
          if emailTo ≠ "" then
            match emailOutcome with
            | none => (step1.1, ["email"])
            | some msg =>
                (recordError step1.1 "digest.dispatch" msg (some "email"),
                  [])
          else (step1.1, [])
        let delivered := step1.2 ++ step2.2
        let db3 :=
          if delivered.isEmpty then step2.1
          else recordDigest step2.1 digestType triggeredAt
        some (⟨digestType, !delivered.isEmpty, signals.length, delivered⟩,
          db3)

/-- StarlinkerDatabase uniqueness index on signals(url). -/
def urlExists (table : List StoredSignal) (url : String) : Bool :=
  table.any (fun r => r.url == url)

/-- The per-row insert loop of store_signals: an IntegrityError from the
unique url index skips the row silently, any other row is appended and
counted. -/
def storeSignalsGo :
    List StoredSignal → List StoredSignal → Nat → List StoredSignal × Nat
  | table, [], n => (table, n)
  | table, r :: rs, n =>
      if urlExists table r.url then storeSignalsGo table rs n
      else storeSignalsGo (table ++ [r]) rs (n + 1)

/-- StarlinkerDatabase.store_signals: try to insert every row, skip
uniqueness violations, return the count actually inserted. -/
def storeSignals (table rows : List StoredSignal) :
    List StoredSignal × Nat :=
  storeSignalsGo table rows 0

/-- The signals-table invariant: no two rows share a url. -/
def uniqueUrls (table : List StoredSignal) : Prop :=
  List.Pairwise (fun a b => a.url ≠ b.url) table

/-- Number of table rows carrying a url. -/
def countUrl (table : List StoredSignal) (u : String) : Nat :=
  table.countP (fun r => r.url == u)

/-- Number of alert rows carrying a dedup key. -/
def countKey (alerts : List AlertRow) (k : String) : Nat :=
  alerts.countP (fun r => r.dedupKey == k)

end Starlinker


namespace Capabilities

theorem verCmpR_all_zero :
    ∀ b : List Nat, verCmpR b = Ordering.eq → ∀ x ∈ b, x = 0 := by
  intro b
  induction b with
  | nil => intro _ x hx; simp at hx
  | cons y ys ih =>
      intro h x hx
      have hy : compare 0 y = Ordering.eq := by
        by_contra hne
        simp only [verCmpR] at h
        match hc : compare 0 y, h with
        | Ordering.eq, _ => exact hne hc
        | Ordering.lt, h => simp [hc] at h
        | Ordering.gt, h => simp [hc] at h
      have h' : verCmpR ys = Ordering.eq := by
        simpa only [verCmpR, hy] using h
      rcases List.mem_cons.mp hx with rfl | hx'
      · exact (Nat.compare_eq_eq.mp hy).symm
      · exact ih h' x hx'

theorem verCmp_nil_right :
    ∀ b : List Nat, verCmp b [] = (verCmpR b).swap := by
  intro b
  induction b with
  | nil => rfl
  | cons x xs ih =>
      simp only [verCmp, verCmpR]
      rcases Nat.lt_trichotomy x 0 with h1 | h1 | h1
      · omega
      · subst h1
        have h00 : compare (0 : Nat) 0 = Ordering.eq := Nat.compare_eq_eq.mpr rfl
        rw [h00]
        exact ih
      · rw [Nat.compare_eq_gt.mpr h1, Nat.compare_eq_lt.mpr h1]
        rfl

theorem verCmp_refl (a : List Nat) : verCmp a a = Ordering.eq := by
  induction a with
  | nil => rfl
  | cons x xs ih =>
      have hxx : compare x x = Ordering.eq := Nat.compare_eq_eq.mpr rfl
      simp only [verCmp, hxx]
      exact ih

theorem verCmp_swap : ∀ a b, verCmp b a = (verCmp a b).swap := by
  intro a b
  induction a, b using verCmp.induct with
  | case1 b => exact verCmp_nil_right b
  | case2 a as h ih =>
      have h0 : a = 0 := Nat.compare_eq_eq.mp h
      subst h0
      have h00 : compare (0 : Nat) 0 = Ordering.eq := Nat.compare_eq_eq.mpr rfl
      simp only [verCmp, verCmpR, h00] at ih ⊢
      exact ih
  | case3 a as h =>
      have ha : 0 < a := by
        rcases Nat.lt_trichotomy a 0 with h1 | h1 | h1
        · omega
        · exact absurd (Nat.compare_eq_eq.mpr h1) h
        · exact h1
      simp only [verCmp, verCmpR]
      rw [Nat.compare_eq_gt.mpr ha, Nat.compare_eq_lt.mpr ha]
      rfl
  | case4 a as b bs h ih =>
      have h0 : a = b := Nat.compare_eq_eq.mp h
      subst h0
      have haa : compare a a = Ordering.eq := Nat.compare_eq_eq.mpr rfl
      simp only [verCmp, haa]
      exact ih
  | case5 a as b bs h =>
      rcases Nat.lt_trichotomy a b with h1 | h1 | h1
      · simp only [verCmp]
        rw [Nat.compare_eq_lt.mpr h1, Nat.compare_eq_gt.mpr h1]
        rfl
      · exact absurd (Nat.compare_eq_eq.mpr h1) h
      · simp only [verCmp]
        rw [Nat.compare_eq_lt.mpr h1, Nat.compare_eq_gt.mpr h1]
        rfl

theorem verCmpR_eq_congr :
    ∀ b, verCmpR b = Ordering.eq → ∀ c, verCmp b c = verCmpR c := by
  intro b
  induction b with
  | nil => intro _ c; rfl
  | cons x xs ih =>
      intro h c
      have hx : compare 0 x = Ordering.eq := by
        by_contra hne
        simp only [verCmpR] at h
        match hc : compare 0 x, h with
        | Ordering.eq, _ => exact hne hc
        | Ordering.lt, h => simp [hc] at h
        | Ordering.gt, h => simp [hc] at h
      have h0 : x = 0 := (Nat.compare_eq_eq.mp hx).symm
      subst h0
      have h' : verCmpR xs = Ordering.eq := by
        simpa only [verCmpR, hx] using h
      match c with
      | [] =>
          have h00 : compare (0 : Nat) 0 = Ordering.eq := Nat.compare_eq_eq.mpr rfl
          simp only [verCmp, verCmpR, h00]
          rw [verCmp_nil_right xs, h']
          rfl
      | z :: cs =>
          simp only [verCmp, verCmpR]
          cases hz : compare (0 : Nat) z with
          | eq => exact ih h' cs
          | lt => rfl
          | gt => rfl

theorem verCmp_eq_congr :
    ∀ a b, verCmp a b = Ordering.eq → ∀ c, verCmp a c = verCmp b c := by
  intro a b
  induction a, b using verCmp.induct with
  | case1 b =>
      intro heq c
      have heq' : verCmpR b = Ordering.eq := heq
      exact (verCmpR_eq_congr b heq' c).symm
  | case2 a as h ih =>
      have h0 : a = 0 := Nat.compare_eq_eq.mp h
      subst h0
      intro heq c
      have h00 : compare (0 : Nat) 0 = Ordering.eq := Nat.compare_eq_eq.mpr rfl
      have heq' : verCmp as [] = Ordering.eq := by
        simpa only [verCmp, h00] using heq
      match c with
      | [] => simp only [verCmp, verCmpR, h00]; exact heq
      | z :: cs =>
          simp only [verCmp, verCmpR]
          cases hz : compare (0 : Nat) z with
          | eq => exact ih heq' cs
          | lt => rfl
          | gt => rfl
  | case3 a as h =>
      intro heq
      exfalso
      simp only [verCmp] at heq
      match hc : compare a 0, heq with
      | Ordering.eq, _ => exact h hc
      | Ordering.lt, heq => simp [hc] at heq
      | Ordering.gt, heq => simp [hc] at heq
  | case4 a as b bs h ih =>
      have h0 : a = b := Nat.compare_eq_eq.mp h
      subst h0
      intro heq c
      have haa : compare a a = Ordering.eq := Nat.compare_eq_eq.mpr rfl
      have heq' : verCmp as bs = Ordering.eq := by
        simpa only [verCmp, haa] using heq
      match c with
      | [] =>
          simp only [verCmp]
          cases hz : compare a 0 with
          | eq => exact ih heq' []
          | lt => rfl
          | gt => rfl
      | z :: cs =>
          simp only [verCmp]
          cases hz : compare a z with
          | eq => exact ih heq' cs
          | lt => rfl
          | gt => rfl
  | case5 a as b bs h =>
      intro heq
      exfalso
      simp only [verCmp] at heq
      match hc : compare a b, heq with
      | Ordering.eq, _ => exact h hc
      | Ordering.lt, heq => simp [hc] at heq
      | Ordering.gt, heq => simp [hc] at heq

theorem verCmpR_lt_trans :
    ∀ b, verCmpR b = Ordering.lt →
      ∀ c, verCmp b c = Ordering.lt → verCmpR c = Ordering.lt := by
  intro b
  induction b with
  | nil => intro h; simp [verCmpR] at h
  | cons x xs ih =>
      intro h1 c h2
      match c with
      | [] =>
          exfalso
          rw [verCmp_nil_right (x :: xs), h1] at h2
          simp [Ordering.swap] at h2
      | z :: cs =>
          simp only [verCmpR] at h1 ⊢
          simp only [verCmp] at h2
          revert h1 h2
          cases hx : compare (0 : Nat) x with
          | eq =>
              have h0 : x = 0 := (Nat.compare_eq_eq.mp hx).symm
              subst h0
              intro h1 h2
              revert h2
              cases hz : compare (0 : Nat) z with
              | eq => intro h2; exact ih h1 cs h2
              | lt => intro _; rfl
              | gt =>
                  intro h2
                  have : z < 0 := Nat.compare_eq_gt.mp hz
                  omega
          | lt =>
              have hx' : 0 < x := Nat.compare_eq_lt.mp hx
              intro _ h2
              revert h2
              cases hz : compare x z with
              | eq =>
                  intro _
                  have : x = z := Nat.compare_eq_eq.mp hz
                  rw [Nat.compare_eq_lt.mpr (by omega : 0 < z)]
              | lt =>
                  intro _
                  have : x < z := Nat.compare_eq_lt.mp hz
                  rw [Nat.compare_eq_lt.mpr (by omega : 0 < z)]
              | gt => intro h2; simp at h2
          | gt =>
              intro h1
              simp at h1

theorem verCmp_lt_trans :
    ∀ a b, verCmp a b = Ordering.lt →
      ∀ c, verCmp b c = Ordering.lt → verCmp a c = Ordering.lt := by
  intro a b
  induction a, b using verCmp.induct with
  | case1 b =>
      intro h1 c h2
      exact verCmpR_lt_trans b h1 c h2
  | case2 a as h ih =>
      have h0 : a = 0 := Nat.compare_eq_eq.mp h
      subst h0
      intro h1 c h2
      have h00 : compare (0 : Nat) 0 = Ordering.eq := Nat.compare_eq_eq.mpr rfl
      have h1' : verCmp as [] = Ordering.lt := by
        simpa only [verCmp, h00] using h1
      match c with
      | [] => simp [verCmp, verCmpR] at h2
      | z :: cs =>
          have h2' : verCmpR (z :: cs) = Ordering.lt := h2
          simp only [verCmpR] at h2'
          simp only [verCmp]
          revert h2'
          cases hz : compare (0 : Nat) z with
          | eq => intro h2'; exact ih h1' cs h2'
          | lt => intro _; rfl
          | gt => intro h2'; simp at h2'
  | case3 a as h =>
      intro h1
      exfalso
      simp only [verCmp] at h1
      match hc : compare a 0, h1 with
      | Ordering.eq, _ => exact h hc
      | Ordering.lt, _ =>
          have : a < 0 := Nat.compare_eq_lt.mp hc
          omega
      | Ordering.gt, h1 => simp [hc] at h1
  | case4 a as b bs h ih =>
      have h0 : a = b := Nat.compare_eq_eq.mp h
      subst h0
      intro h1 c h2
      have haa : compare a a = Ordering.eq := Nat.compare_eq_eq.mpr rfl
      have h1' : verCmp as bs = Ordering.lt := by
        simpa only [verCmp, haa] using h1
      match c with
      | [] =>
          simp only [verCmp] at h2 ⊢
          revert h2
          cases hz : compare a 0 with
          | eq => intro h2; exact ih h1' [] h2
          | lt => intro _; rfl
          | gt => intro h2; simp at h2
      | z :: cs =>
          simp only [verCmp] at h2 ⊢
          revert h2
          cases hz : compare a z with
          | eq => intro h2; exact ih h1' cs h2
          | lt => intro _; rfl
          | gt => intro h2; simp at h2
  | case5 a as b bs h =>
      intro h1 c h2
      have hab : a < b := by
        simp only [verCmp] at h1
        match hc : compare a b, h1 with
        | Ordering.eq, _ => exact absurd hc h
        | Ordering.lt, _ => exact Nat.compare_eq_lt.mp hc
        | Ordering.gt, h1 => simp [hc] at h1
      match c with
      | [] =>
          exfalso
          have hb : 0 < b := by omega
          simp only [verCmp] at h2
          rw [Nat.compare_eq_gt.mpr hb] at h2
          simp at h2
      | z :: cs =>
          simp only [verCmp] at h2 ⊢
          revert h2
          cases hz : compare b z with
          | eq =>
              intro _
              have hbz : b = z := Nat.compare_eq_eq.mp hz
              rw [Nat.compare_eq_lt.mpr (hbz ▸ hab)]
          | lt =>
              intro _
              have hbz : b < z := Nat.compare_eq_lt.mp hz
              rw [Nat.compare_eq_lt.mpr (by omega : a < z)]
          | gt => intro h2; simp at h2

/-- p wins against q under the resolution rule of CapabilityRegistry.get:
either q's version is strictly below p's, or the versions are equal and p
was inserted no later than q. -/
def provDominates (p q : Provider) : Prop :=
  verCmp q.version p.version = Ordering.lt ∨
    (verCmp q.version p.version = Ordering.eq ∧ p.order ≤ q.order)

theorem provDominates_refl (p : Provider) : provDominates p p :=
  Or.inr ⟨verCmp_refl p.version, Nat.le_refl _⟩

theorem provDominates_trans {p b q : Provider} (h1 : provDominates p b)
    (h2 : provDominates b q) : provDominates p q := by
  rcases h1 with h1 | ⟨h1, h1o⟩
  · rcases h2 with h2 | ⟨h2, h2o⟩
    · exact Or.inl (verCmp_lt_trans _ _ h2 _ h1)
    · exact Or.inl ((verCmp_eq_congr _ _ h2 _).trans h1)
  · rcases h2 with h2 | ⟨h2, h2o⟩
    · left
      have hs : verCmp p.version b.version = Ordering.eq := by
        have := verCmp_swap b.version p.version
        rw [h1] at this
        cases hx : verCmp p.version b.version <;> rw [hx] at this <;>
          simp [Ordering.swap] at this ⊢
      have : verCmp p.version q.version = verCmp b.version q.version :=
        verCmp_eq_congr _ _ hs _
      have hgt : verCmp b.version q.version = Ordering.gt := by
        have hsw := verCmp_swap q.version b.version
        rw [h2] at hsw
        exact hsw
      have hpq : verCmp p.version q.version = Ordering.gt := this.trans hgt
      have hsw := verCmp_swap p.version q.version
      rw [hpq] at hsw
      exact hsw
    · exact Or.inr ⟨(verCmp_eq_congr _ _ h2 _).trans h1, Nat.le_trans h1o h2o⟩

/-- The keep-or-switch test inside the selection loop of
CapabilityRegistry.get establishes domination of the switched-to provider
over the dropped one. -/
theorem cond_dominates {x b : Provider}
    (h : (verLt b.version x.version ||
      (verEq x.version b.version && decide (x.order < b.order))) = true) :
    provDominates x b := by
  rcases Bool.or_eq_true_iff.mp h with h | h
  · exact Or.inl (of_decide_eq_true h)
  · rcases Bool.and_eq_true_iff.mp h with ⟨h1, h2⟩
    have hx : verCmp x.version b.version = Ordering.eq := of_decide_eq_true h1
    have hsw := verCmp_swap x.version b.version
    rw [hx] at hsw
    exact Or.inr ⟨hsw, Nat.le_of_lt (of_decide_eq_true h2)⟩

/-- The negated keep-or-switch test establishes domination of the kept
provider over the rejected candidate. -/
theorem ncond_dominates {x b : Provider}
    (h : ¬ ((verLt b.version x.version ||
      (verEq x.version b.version && decide (x.order < b.order))) = true)) :
    provDominates b x := by
  rw [Bool.or_eq_true_iff] at h
  push_neg at h
  obtain ⟨h1, h2⟩ := h
  cases hx : verCmp b.version x.version with
  | lt => exact absurd (decide_eq_true hx) h1
  | eq =>
      have hsw := verCmp_swap b.version x.version
      rw [hx] at hsw
      have hsw' : verCmp x.version b.version = Ordering.eq := hsw
      have hord : ¬ x.order < b.order := by
        intro hlt
        apply h2
        rw [Bool.and_eq_true_iff]
        exact ⟨decide_eq_true hsw', decide_eq_true hlt⟩
      exact Or.inr ⟨hsw', Nat.le_of_not_lt hord⟩
  | gt =>
      have hsw := verCmp_swap b.version x.version
      rw [hx] at hsw
      exact Or.inl hsw

/-- Invariant of the selection loop of CapabilityRegistry.get: the result is
a satisfying provider (or the starting accumulator) that dominates every
satisfying provider scanned and the accumulator itself. -/
theorem bestGo_invariant (cs : List (SpecOp × List Nat)) :
    ∀ (lst : List Provider) (best : Option Provider),
      (bestGo cs lst best = none →
        best = none ∧ ∀ q ∈ lst, satSpec cs q.version = false) ∧
      (∀ p, bestGo cs lst best = some p →
        ((p ∈ lst ∧ satSpec cs p.version = true) ∨ best = some p) ∧
        (∀ q ∈ lst, satSpec cs q.version = true → provDominates p q) ∧
        (∀ b0, best = some b0 → provDominates p b0)) := by
  intro lst
  induction lst with
  | nil =>
      intro best
      refine ⟨fun h => ⟨h, by simp⟩, fun p hp => ?_⟩
      simp only [bestGo] at hp
      exact ⟨Or.inr hp, by simp, fun b0 hb0 => by
        rw [hb0] at hp
        cases hp
        exact provDominates_refl _⟩
  | cons x xs ih =>
      intro best
      by_cases hsat : satSpec cs x.version = true
      · cases best with
        | none =>
            have hgo : bestGo cs (x :: xs) none = bestGo cs xs (some x) := by
              simp [bestGo, hsat]
            constructor
            · intro h
              rw [hgo] at h
              obtain ⟨habs, _⟩ := (ih (some x)).1 h
              exact absurd habs (by simp)
            · intro p hp
              rw [hgo] at hp
              obtain ⟨hmem, hdom, hacc⟩ := (ih (some x)).2 p hp
              have hdx : provDominates p x := hacc x rfl
              refine ⟨?_, ?_, by simp⟩
              · rcases hmem with ⟨hm, hs⟩ | hpx
                · exact Or.inl ⟨List.mem_cons_of_mem _ hm, hs⟩
                · cases hpx
                  exact Or.inl ⟨List.mem_cons_self _ _, hsat⟩
              · intro q hq hqs
                rcases List.mem_cons.mp hq with rfl | hq'
                · exact hdx
                · exact hdom q hq' hqs
        | some b =>
            by_cases hcond : (verLt b.version x.version ||
                (verEq x.version b.version && decide (x.order < b.order))) = true
            · have hgo : bestGo cs (x :: xs) (some b) = bestGo cs xs (some x) := by
                simp [bestGo, hsat, hcond]
              constructor
              · intro h
                rw [hgo] at h
                obtain ⟨habs, _⟩ := (ih (some x)).1 h
                exact absurd habs (by simp)
              · intro p hp
                rw [hgo] at hp
                obtain ⟨hmem, hdom, hacc⟩ := (ih (some x)).2 p hp
                have hdx : provDominates p x := hacc x rfl
                have hdb : provDominates p b :=
                  provDominates_trans hdx (cond_dominates hcond)
                refine ⟨?_, ?_, ?_⟩
                · rcases hmem with ⟨hm, hs⟩ | hpx
                  · exact Or.inl ⟨List.mem_cons_of_mem _ hm, hs⟩
                  · cases hpx
                    exact Or.inl ⟨List.mem_cons_self _ _, hsat⟩
                · intro q hq hqs
                  rcases List.mem_cons.mp hq with rfl | hq'
                  · exact hdx
                  · exact hdom q hq' hqs
                · intro b0 hb0
                  cases hb0
                  exact hdb
            · have hgo : bestGo cs (x :: xs) (some b) = bestGo cs xs (some b) := by
                simp only [bestGo, hsat, if_true]
                rw [if_neg hcond]
              constructor
              · intro h
                rw [hgo] at h
                obtain ⟨habs, _⟩ := (ih (some b)).1 h
                exact absurd habs (by simp)
              · intro p hp
                rw [hgo] at hp
                obtain ⟨hmem, hdom, hacc⟩ := (ih (some b)).2 p hp
                have hdb : provDominates p b := hacc b rfl
                have hdx : provDominates p x :=
                  provDominates_trans hdb (ncond_dominates hcond)
                refine ⟨?_, ?_, ?_⟩
                · rcases hmem with ⟨hm, hs⟩ | hpb
                  · exact Or.inl ⟨List.mem_cons_of_mem _ hm, hs⟩
                  · exact Or.inr hpb
                · intro q hq hqs
                  rcases List.mem_cons.mp hq with rfl | hq'
                  · exact hdx
                  · exact hdom q hq' hqs
                · intro b0 hb0
                  cases hb0
                  exact hdb
      · have hgo : bestGo cs (x :: xs) best = bestGo cs xs best := by
          simp [bestGo, hsat]
        constructor
        · intro h
          rw [hgo] at h
          obtain ⟨h1, h2⟩ := (ih best).1 h
          refine ⟨h1, fun q hq => ?_⟩
          rcases List.mem_cons.mp hq with rfl | hq'
          · exact Bool.not_eq_true _ ▸ (Bool.eq_false_iff.mpr hsat)
          · exact h2 q hq'
        · intro p hp
          rw [hgo] at hp
          obtain ⟨hmem, hdom, hacc⟩ := (ih best).2 p hp
          refine ⟨?_, ?_, hacc⟩
          · rcases hmem with ⟨hm, hs⟩ | hpb
            · exact Or.inl ⟨List.mem_cons_of_mem _ hm, hs⟩
            · exact Or.inr hpb
          · intro q hq hqs
            rcases List.mem_cons.mp hq with rfl | hq'
            · exact absurd hqs hsat
            · exact hdom q hq' hqs

/-- In a pairwise-related list a reflexive relation holds from every member
into the last element. -/
theorem pairwise_rel_getLastD {α : Type} {R : α → α → Prop}
    (hrefl : ∀ a, R a a) :
    ∀ (x : α) (xs : List α), List.Pairwise R (x :: xs) →
      ∀ q ∈ x :: xs, R q (xs.getLastD x) := by
  intro x xs
  induction xs generalizing x with
  | nil =>
      intro _ q hq
      rcases List.mem_cons.mp hq with rfl | hq'
      · exact hrefl q
      · simp at hq'
  | cons y ys ih =>
      intro hpw q hq
      have hpw' : List.Pairwise R (y :: ys) := hpw.of_cons
      have hlast : (y :: ys).getLastD x = ys.getLastD y := by
        rw [← List.getLast_eq_getLastD y ys (by simp),
          ← List.getLast_eq_getLastD x (y :: ys) (by simp)]
        exact List.getLast_cons (by simp)
      rw [hlast]
      rcases List.mem_cons.mp hq with rfl | hq'
      · have hmem : ys.getLastD y ∈ y :: ys := by
          rw [← List.getLast_eq_getLastD y ys (by simp)]
          exact List.getLast_mem (by simp)
        exact (List.pairwise_cons.mp hpw).1 _ hmem
      · exact ih y hpw' q hq'

/-- Inserting a provider whose version differs from every element of the
list never needs an object comparison, so it cannot raise; the result holds
exactly the old elements plus the new one. -/
theorem insertSortedE_ok (p : Provider) :
    ∀ ys : List Provider,
      (∀ q ∈ ys, verEq p.version q.version = false) →
      ∃ zs, insertSortedE p ys = Except.ok zs ∧
        ∀ x, x ∈ zs ↔ x = p ∨ x ∈ ys := by
  intro ys
  induction ys with
  | nil =>
      intro _
      exact ⟨[p], rfl, by simp⟩
  | cons q qs ih =>
      intro hne
      have hq : verEq p.version q.version = false := hne q (by simp)
      have hlt : provLtE p q = Except.ok (verLt p.version q.version) := by
        simp [provLtE, hq]
      by_cases hb : verLt p.version q.version = true
      · refine ⟨p :: q :: qs, ?_, by intro x; simp⟩
        simp only [insertSortedE, hlt, hb]
        rfl
      · obtain ⟨zs, hzs, hmem⟩ := ih (fun r hr => hne r (List.mem_cons_of_mem _ hr))
        rw [Bool.not_eq_true] at hb
        refine ⟨q :: zs, ?_, ?_⟩
        · simp only [insertSortedE, hlt, hb, hzs]
          rfl
        · intro x
          simp only [List.mem_cons, hmem x]
          tauto

/-- Sorting a list of providers with pairwise distinct versions never
compares objects, so list.sort cannot raise TypeError; the result is a
permutation-equivalent list (membership preserved). -/
theorem sortE_ok :
    ∀ l : List Provider,
      List.Pairwise (fun p q => verEq p.version q.version = false) l →
      ∃ zs, sortE l = Except.ok zs ∧ ∀ x, x ∈ zs ↔ x ∈ l := by
  intro l
  induction l with
  | nil => intro _; exact ⟨[], rfl, by simp⟩
  | cons p ps ih =>
      intro hpw
      obtain ⟨rest, hrest, hrmem⟩ := ih hpw.of_cons
      have hne : ∀ q ∈ rest, verEq p.version q.version = false := by
        intro q hq
        exact (List.pairwise_cons.mp hpw).1 q ((hrmem q).mp hq)
      obtain ⟨zs, hzs, hzmem⟩ := insertSortedE_ok p rest hne
      refine ⟨zs, ?_, ?_⟩
      · simp only [sortE, hrest]
        exact hzs
      · intro x
        rw [hzmem x, hrmem x]
        simp


/-- Claim C5: for every registry state and every well-formed caret query
name at-sign caret X.Y, CapabilityRegistry.get returns the provider whose
version v is the greatest one satisfying X.Y at most v below (X+1).0,
breaking version ties by earliest insertion, and returns none when no bound
provider satisfies the range.  Stated as: (1) the selection loop returns
none exactly when nothing satisfies, and otherwise a satisfying provider
that dominates every satisfying provider; (2) the caret clauses denote the
half-open version interval; (3) a caret specifier takes exactly this path
through capGetList. -/
theorem C5_caret_resolution :
    (∀ (lst : List Provider) (base : List Nat),
      (bestMatch lst (caretClauses base) = none ↔
        ∀ q ∈ lst, satSpec (caretClauses base) q.version = false) ∧
      (∀ o, bestMatch lst (caretClauses base) = some o →
        ∃ p, p ∈ lst ∧ p.obj = o ∧ satSpec (caretClauses base) p.version = true ∧
          ∀ q ∈ lst, satSpec (caretClauses base) q.version = true →
            (verCmp q.version p.version = Ordering.lt ∨
              (verCmp q.version p.version = Ordering.eq ∧ p.order ≤ q.order)))) ∧
    (∀ (x y : Nat) (v : List Nat),
      satSpec (caretClauses [x, y]) v =
        (!(verLt v [x, y]) && verLt v [x + 1, 0])) ∧
    (∀ (lst : List Provider) (s : String) (base : List Nat),
      s ≠ "" → s.front.isDigit = false → strStartsWith s "^" = true →
      parseVer (s.drop 1) = some base →
      capGetList lst (some s) = Except.ok (bestMatch lst (caretClauses base))) := by
  refine ⟨fun lst base => ⟨⟨?_, ?_⟩, ?_⟩, ?_, ?_⟩
  · intro hnone q hq
    by_contra hq2
    have h := (bestGo_invariant (caretClauses base) lst none).1
    unfold bestMatch at hnone
    rw [Option.map_eq_none'] at hnone
    obtain ⟨_, hall⟩ := h hnone
    exact hq2 (hall q hq)
  · intro hall
    unfold bestMatch
    rw [Option.map_eq_none']
    cases hres : bestGo (caretClauses base) lst none with
    | none => rfl
    | some p =>
        obtain ⟨hmem, _, _⟩ := (bestGo_invariant (caretClauses base) lst none).2 p hres
        rcases hmem with ⟨hm, hs⟩ | habs
        · rw [hall p hm] at hs
          cases hs
        · cases habs
  · intro o ho
    unfold bestMatch at ho
    rw [Option.map_eq_some'] at ho
    obtain ⟨p, hres, hobj⟩ := ho
    obtain ⟨hmem, hdom, _⟩ := (bestGo_invariant (caretClauses base) lst none).2 p hres
    rcases hmem with ⟨hm, hs⟩ | habs
    · exact ⟨p, hm, hobj, hs, fun q hq hqs => hdom q hq hqs⟩
    · cases habs
  · intro x y v
    simp [satSpec, caretClauses, satClause]
  · intro lst s base hne hdig hcar hbase
    cases lst with
    | nil => simp [capGetList, bestMatch, bestGo]
    | cons p ps => simp [capGetList, hne, hdig, hcar, hbase]

/-- Claim C5 witness: the caret resolution applied to the provider list of
the repository's own capability test (versions 1.0.0, 1.5.0, 2.0.0). -/
theorem C5_caret_resolution_witness :
    capGetList
      [⟨[1, 0, 0], PyObj.object 1, 0⟩, ⟨[1, 5, 0], PyObj.object 2, 1⟩,
        ⟨[2, 0, 0], PyObj.object 3, 2⟩] (some "^1.0") =
      Except.ok (bestMatch
        [⟨[1, 0, 0], PyObj.object 1, 0⟩, ⟨[1, 5, 0], PyObj.object 2, 1⟩,
          ⟨[2, 0, 0], PyObj.object 3, 2⟩] (caretClauses [1, 0])) ∧
    bestMatch
      [⟨[1, 0, 0], PyObj.object 1, 0⟩, ⟨[1, 5, 0], PyObj.object 2, 1⟩,
        ⟨[2, 0, 0], PyObj.object 3, 2⟩] (caretClauses [1, 0]) =
      some (PyObj.object 2) :=
  ⟨C5_caret_resolution.2.2
      [⟨[1, 0, 0], PyObj.object 1, 0⟩, ⟨[1, 5, 0], PyObj.object 2, 1⟩,
        ⟨[2, 0, 0], PyObj.object 3, 2⟩]
      "^1.0" [1, 0] (by decide) (by decide) (by decide) (by decide), rfl⟩

/-- Claim C4 counterexample: two providers bound under the same name at the
same (greatest) version.  The claim demands the earliest-inserted provider
(the object bound first, intVal 1); get with a bare name or an empty
specifier returns intVal 2 instead, because the list is sorted by
(version, obj, order) and the last element is taken. -/
theorem C4_latest_counterexample :
    bind emptyRegistry "svc@1.0" (PyObj.intVal 1) =
      Except.ok ⟨[("svc", [⟨[1, 0], PyObj.intVal 1, 0⟩])], 1⟩ ∧
    bind ⟨[("svc", [⟨[1, 0], PyObj.intVal 1, 0⟩])], 1⟩ "svc@1.0" (PyObj.intVal 2) =
      Except.ok ⟨[("svc", [⟨[1, 0], PyObj.intVal 1, 0⟩,
        ⟨[1, 0], PyObj.intVal 2, 1⟩])], 2⟩ ∧
    get ⟨[("svc", [⟨[1, 0], PyObj.intVal 1, 0⟩, ⟨[1, 0], PyObj.intVal 2, 1⟩])], 2⟩
        "svc" = Except.ok (some (PyObj.intVal 2)) ∧
    get ⟨[("svc", [⟨[1, 0], PyObj.intVal 1, 0⟩, ⟨[1, 0], PyObj.intVal 2, 1⟩])], 2⟩
        "svc@" = Except.ok (some (PyObj.intVal 2)) ∧
    PyObj.intVal 2 ≠ PyObj.intVal 1 :=
  ⟨rfl, rfl, rfl, rfl, by decide⟩

/-- Claim C4 as amended: get with a bare name, or with an empty specifier
after the at-sign, returns the last element of the name's provider list;
since bind keeps that list sorted ascending by (version, obj, order), this
is a provider of the greatest version, but among providers sharing the
greatest version the winner is decided by the provider objects' own
ordering and then by latest insertion — not by earliest insertion. -/
theorem C4_latest_amended :
    ∀ (p : Provider) (ps : List Provider),
      capGetList (p :: ps) none = Except.ok (some ((ps.getLastD p).obj)) ∧
      capGetList (p :: ps) (some "") = Except.ok (some ((ps.getLastD p).obj)) ∧
      capGetList [] none = Except.ok none ∧
      (List.Pairwise (fun a b => verCmp a.version b.version ≠ Ordering.gt)
          (p :: ps) →
        ∀ q ∈ p :: ps,
          verCmp q.version (ps.getLastD p).version ≠ Ordering.gt) := by
  intro p ps
  refine ⟨rfl, rfl, rfl, fun hpw q hq => ?_⟩
  exact pairwise_rel_getLastD (fun a => by rw [verCmp_refl]; simp) p ps hpw q hq

/-- Claim C4 witness: a sorted two-provider registry list in which the
bare-name lookup indeed returns the greatest version. -/
theorem C4_latest_amended_witness :
    capGetList [⟨[1, 0], PyObj.object 1, 0⟩, ⟨[2, 0], PyObj.object 2, 1⟩]
        none = Except.ok (some (PyObj.object 2)) ∧
    verCmp [1, 0] [2, 0] ≠ Ordering.gt :=
  ⟨(C4_latest_amended ⟨[1, 0], PyObj.object 1, 0⟩
      [⟨[2, 0], PyObj.object 2, 1⟩]).1,
    (C4_latest_amended ⟨[1, 0], PyObj.object 1, 0⟩
        [⟨[2, 0], PyObj.object 2, 1⟩]).2.2.2 (by decide)
      ⟨[1, 0], PyObj.object 1, 0⟩ (by decide)⟩

/-- Claim C9 counterexample: binding a second provider under the same name
with a version equal to the already-bound one raises TypeError when the two
provider objects do not support ordering, because the re-sort of the
Provider dataclass list compares the obj fields on the version tie. -/
theorem C9_bind_counterexample :
    bind emptyRegistry "svc@1.0" (PyObj.object 0) =
      Except.ok ⟨[("svc", [⟨[1, 0], PyObj.object 0, 0⟩])], 1⟩ ∧
    bind ⟨[("svc", [⟨[1, 0], PyObj.object 0, 0⟩])], 1⟩ "svc@1.0"
        (PyObj.object 1) = Except.error PyErr.typeError :=
  ⟨rfl, rfl⟩

/-- Claim C9 as amended: bind succeeds on a well-formed capability string
whenever the new version differs from every version already bound under the
name (so the re-sort never has to compare provider objects); it is not
total when a version tie meets non-comparable objects. -/
theorem C9_bind_total_amended :
    ∀ (r : Registry) (capability : String) (provider : PyObj)
      (name verStr : String) (ver : List Nat),
      splitFirst capability '@' = some (name, verStr) →
      parseVer verStr = some ver →
      List.Pairwise (fun p q => verEq p.version q.version = false)
        (lookupProviders r.providers name) →
      (∀ q ∈ lookupProviders r.providers name, verEq q.version ver = false) →
      ∃ r', bind r capability provider = Except.ok r' := by
  intro r capability provider name verStr ver hsplit hver hpw hdist
  have hall : List.Pairwise (fun p q => verEq p.version q.version = false)
      (lookupProviders r.providers name ++ [⟨ver, provider, r.counter⟩]) := by
    rw [List.pairwise_append]
    refine ⟨hpw, List.pairwise_singleton _ _, ?_⟩
    intro a ha b hb
    have hb' : b = ⟨ver, provider, r.counter⟩ := by simpa using hb
    subst hb'
    exact hdist a ha
  obtain ⟨zs, hzs, _⟩ := sortE_ok _ hall
  refine ⟨⟨updateProviders r.providers name zs, r.counter + 1⟩, ?_⟩
  simp only [bind, hsplit, hver, hzs]

/-- Claim C9 witness: binding a second non-comparable object at a distinct
version succeeds. -/
theorem C9_bind_total_amended_witness :
    ∃ r', bind ⟨[("svc", [⟨[1, 0], PyObj.object 0, 0⟩])], 1⟩ "svc@2.0"
      (PyObj.object 1) = Except.ok r' :=
  C9_bind_total_amended ⟨[("svc", [⟨[1, 0], PyObj.object 0, 0⟩])], 1⟩
    "svc@2.0" (PyObj.object 1) "svc" "2.0" [2, 0]
    (by decide) (by decide) (by decide) (by decide)

end Capabilities


namespace Loader

theorem lookup_cons_pair (a : String) {β : Type} (b : β)
    (t : List (String × β)) (n : String) :
    List.lookup n ((a, b) :: t) = if n = a then some b else List.lookup n t := by
  rw [List.lookup_cons]
  by_cases h : n = a
  · simp [h]
  · have hb : (n == a) = false := beq_eq_false_iff_ne.mpr h
    simp [hb, h]

theorem lookup_setEnabled (n name : String) (b : Bool) :
    ∀ l : List (String × ModState),
      List.lookup name (setEnabled l n b) =
        if name = n then
          (List.lookup name l).map (fun s => { s with enabled := b })
        else List.lookup name l := by
  intro l
  induction l with
  | nil => by_cases h : name = n <;> simp [setEnabled, h]
  | cons kv t ih =>
      obtain ⟨k, s⟩ := kv
      have hstep : setEnabled ((k, s) :: t) n b =
          (if k = n then (k, { s with enabled := b }) else (k, s)) ::
            setEnabled t n b := by
        by_cases hkn : k = n <;> simp [setEnabled, hkn]
      rw [hstep]
      by_cases hkn : k = n
      · by_cases hnk : name = k
        · have hnn : name = n := hnk.trans hkn
          rw [if_pos hkn, lookup_cons_pair, if_pos hnk, if_pos hnn,
            lookup_cons_pair, if_pos hnk]
          rfl
        · have hnn : name ≠ n := fun h => hnk (h.trans hkn.symm)
          rw [if_pos hkn, lookup_cons_pair, if_neg hnk, ih, if_neg hnn,
            if_neg hnn, lookup_cons_pair, if_neg hnk]
      · by_cases hnk : name = k
        · have hnn : name ≠ n := fun h => hkn (hnk.symm.trans h)
          rw [if_neg hkn, lookup_cons_pair, if_pos hnk, if_neg hnn,
            lookup_cons_pair, if_pos hnk]
        · rw [if_neg hkn, lookup_cons_pair, if_neg hnk, ih,
            lookup_cons_pair, if_neg hnk]

theorem disableModule_enableOrder (st : LoaderState) (k : String) :
    (disableModule st k).1.enableOrder = st.enableOrder := by
  unfold disableModule
  cases List.lookup k st.modules with
  | none => rfl
  | some m =>
      by_cases h1 : m.enabled && m.hasOnDisable
      · by_cases h2 : m.disableRaises = true <;> simp [h1, h2]
      · simp [h1]

theorem disableModule_preserve (name : String) (m : ModState)
    (hm : m.hasOnDisable = false) (st : LoaderState) (k : String)
    (h : List.lookup name st.modules = some m) :
    List.lookup name (disableModule st k).1.modules = some m := by
  unfold disableModule
  cases hk : List.lookup k st.modules with
  | none => exact h
  | some mk =>
      by_cases h1 : mk.enabled && mk.hasOnDisable
      · by_cases h2 : mk.disableRaises = true
        · simp only [h1, if_true, h2, if_pos rfl]
          exact h
        · simp only [h1, if_true, if_neg h2]
          rw [lookup_setEnabled]
          by_cases hnk : name = k
          · subst hnk
            rw [h] at hk
            cases hk
            rw [Bool.and_eq_true] at h1
            rw [hm] at h1
            exact absurd h1.2 (by simp)
          · rw [if_neg hnk]
            exact h
      · simp only [h1, if_false]
        exact h

theorem lookup_mem {β : Type} :
    ∀ (l : List (String × β)) (n : String) (v : β),
      List.lookup n l = some v → (n, v) ∈ l := by
  intro l
  induction l with
  | nil => intro n v h; simp [List.lookup] at h
  | cons kv t ih =>
      obtain ⟨k, s⟩ := kv
      intro n v h
      rw [lookup_cons_pair] at h
      by_cases hnk : n = k
      · rw [if_pos hnk] at h
        cases h
        subst hnk
        exact List.mem_cons_self _ _
      · rw [if_neg hnk] at h
        exact List.mem_cons_of_mem _ (ih n v h)

theorem disableModule_raises (st : LoaderState) (k : String)
    (hall : ∀ p ∈ st.modules, (p.2).disableRaises = false) :
    (disableModule st k).2.2 = false := by
  unfold disableModule
  cases hk : List.lookup k st.modules with
  | none => rfl
  | some mk =>
      by_cases h1 : mk.enabled && mk.hasOnDisable
      · have : mk.disableRaises = false :=
          hall (k, mk) (lookup_mem st.modules k mk hk)
        simp [h1, this]
      · simp [h1]

theorem disableModule_hall (st : LoaderState) (k : String)
    (hall : ∀ p ∈ st.modules, (p.2).disableRaises = false) :
    ∀ p ∈ (disableModule st k).1.modules, (p.2).disableRaises = false := by
  intro p hp
  unfold disableModule at hp
  cases hk : List.lookup k st.modules with
  | none =>
      rw [hk] at hp
      exact hall p hp
  | some mk =>
      rw [hk] at hp
      by_cases h1 : mk.enabled && mk.hasOnDisable
      · by_cases h2 : mk.disableRaises = true
        · simp only [h1, if_true, h2, if_pos rfl] at hp
          exact hall p hp
        · simp only [h1, if_true, if_neg h2] at hp
          simp only [setEnabled, List.mem_map] at hp
          obtain ⟨q, hq, hpq⟩ := hp
          by_cases hqk : q.1 = k
          · rw [if_pos hqk] at hpq
            have := hall q hq
            rw [← hpq]
            exact this
          · rw [if_neg hqk] at hpq
            rw [← hpq]
            exact hall q hq
      · simp only [h1, if_false] at hp
        exact hall p hp

theorem disableAllGo_facts (name : String) (m : ModState)
    (hm : m.hasOnDisable = false) :
    ∀ (ns : List String) (st : LoaderState),
      List.lookup name st.modules = some m →
      (∀ p ∈ st.modules, (p.2).disableRaises = false) →
      List.lookup name (disableAllGo st ns).1.modules = some m ∧
      (disableAllGo st ns).1.enableOrder = st.enableOrder ∧
      (disableAllGo st ns).2.2 = false := by
  intro ns
  induction ns with
  | nil => intro st h hall; exact ⟨h, rfl, rfl⟩
  | cons k ks ih =>
      intro st h hall
      have hr : (disableModule st k).2.2 = false := disableModule_raises st k hall
      have hpres := disableModule_preserve name m hm st k h
      have hord := disableModule_enableOrder st k
      have hall' := disableModule_hall st k hall
      obtain ⟨ih1, ih2, ih3⟩ := ih (disableModule st k).1 hpres hall'
      simp only [disableAllGo, hr, Bool.false_eq_true, if_false]
      exact ⟨ih1, ih2.trans hord, ih3⟩

/-- Claim C2: during disable_all, an exception from one module's on_disable
aborts the pass — evaluated at a loader with modules A then B enabled in
that order, where B's on_disable raises.  The pass visits only B: the trace
holds a single disable invocation (B's), A's on_disable is never invoked,
the exception escapes, A and B stay enabled, and enable_order is not
cleared.  This contradicts the claim (and the spec), which demand that
every remaining module still have on_disable invoked. -/
theorem C2_disable_all_aborts_on_error :
    disableAll
        ⟨[("A", ⟨true, true, false, true⟩), ("B", ⟨true, true, true, true⟩)],
          ["A", "B"]⟩ =
      (⟨[("A", ⟨true, true, false, true⟩), ("B", ⟨true, true, true, true⟩)],
          ["A", "B"]⟩,
        [("B", Hook.disable)], true) ∧
    ("A", Hook.disable) ∉ [("B", Hook.disable)] :=
  ⟨rfl, by decide⟩

/-- Claim C10: disable_module clears the enabled flag only when the
instance defines on_disable.  For a module whose instance lacks on_disable,
after disable_all (with no hook raising anywhere) the module record is
untouched — its enabled flag is still true — while the recorded enable
order is cleared, and a subsequent enable_module on it is a no-op returning
the unchanged state with no on_enable invocation. -/
theorem C10_disable_without_hook :
    ∀ (st : LoaderState) (name : String) (m : ModState),
      List.lookup name st.modules = some m →
      m.enabled = true →
      m.hasOnDisable = false →
      (∀ p ∈ st.modules, (p.2).disableRaises = false) →
      (disableAll st).2.2 = false ∧
      List.lookup name (disableAll st).1.modules = some m ∧
      (disableAll st).1.enableOrder = [] ∧
      enableModule (disableAll st).1 name = some ((disableAll st).1, []) := by
  intro st name m hlook hen hdis hall
  obtain ⟨h1, h2, h3⟩ :=
    disableAllGo_facts name m hdis st.enableOrder.reverse st hlook hall
  have hres : disableAll st =
      ({ (disableAllGo st st.enableOrder.reverse).1 with enableOrder := [] },
        (disableAllGo st st.enableOrder.reverse).2.1, false) := by
    unfold disableAll
    simp [h3]
  rw [hres]
  refine ⟨rfl, h1, rfl, ?_⟩
  simp [enableModule, h1, hen]

/-- Claim C10 witness: one enabled module without an on_disable hook,
together with a sibling that has one. -/
theorem C10_disable_without_hook_witness :
    (disableAll ⟨[("A", ⟨true, false, false, true⟩),
        ("B", ⟨true, true, false, true⟩)], ["A", "B"]⟩).2.2 = false ∧
    List.lookup "A" (disableAll ⟨[("A", ⟨true, false, false, true⟩),
        ("B", ⟨true, true, false, true⟩)], ["A", "B"]⟩).1.modules =
      some ⟨true, false, false, true⟩ ∧
    (disableAll ⟨[("A", ⟨true, false, false, true⟩),
        ("B", ⟨true, true, false, true⟩)], ["A", "B"]⟩).1.enableOrder = [] ∧
    enableModule (disableAll ⟨[("A", ⟨true, false, false, true⟩),
        ("B", ⟨true, true, false, true⟩)], ["A", "B"]⟩).1 "A" =
      some ((disableAll ⟨[("A", ⟨true, false, false, true⟩),
        ("B", ⟨true, true, false, true⟩)], ["A", "B"]⟩).1, []) :=
  C10_disable_without_hook
    ⟨[("A", ⟨true, false, false, true⟩), ("B", ⟨true, true, false, true⟩)],
      ["A", "B"]⟩
    "A" ⟨true, false, false, true⟩ (by decide) rfl rfl (by decide)

end Loader


namespace Starlinker

theorem mem_insertStable {α : Type} (le : α → α → Bool) (y : α) :
    ∀ (l : List α) (x : α), x ∈ insertStable le y l ↔ x = y ∨ x ∈ l := by
  intro l
  induction l with
  | nil => intro x; simp [insertStable]
  | cons z zs ih =>
      intro x
      simp only [insertStable]
      by_cases h : le y z = true
      · simp [h]
      · rw [if_neg h]
        simp only [List.mem_cons, ih x]
        tauto

theorem mem_sortStable {α : Type} (le : α → α → Bool) :
    ∀ (l : List α) (x : α), x ∈ sortStable le l ↔ x ∈ l := by
  intro l
  induction l with
  | nil => intro x; simp [sortStable]
  | cons z zs ih =>
      intro x
      simp only [sortStable, mem_insertStable, ih x, List.mem_cons]

theorem collect_not_exists (db : Db) (triggeredAt window minPriority : Int) :
    ∀ c ∈ collectCandidates db triggeredAt window minPriority,
      alertExists db c.dedupKey = false := by
  intro c hc
  unfold collectCandidates at hc
  rw [mem_sortStable] at hc
  rw [List.mem_filterMap] at hc
  obtain ⟨s, _, hs⟩ := hc
  by_cases hp : scoreSignal s < minPriority
  · rw [if_pos hp] at hs
    cases hs
  · rw [if_neg hp] at hs
    by_cases he : alertExists db (buildDedupKey s) = true
    · rw [if_pos he] at hs
      cases hs
    · rw [if_neg he] at hs
      cases hs
      exact Bool.not_eq_true _ ▸ he

theorem countKey_append_ne (alerts : List AlertRow) (row : AlertRow)
    (K : String) (h : row.dedupKey ≠ K) :
    countKey (alerts ++ [row]) K = countKey alerts K := by
  unfold countKey
  rw [List.countP_append]
  simp [h]

theorem dispatchCandidate_countKey (cfg : StarlinkerConfig) (db : Db)
    (triggeredAt : Int) (idx : Nat) (c : AlertCandidate)
    (dOut eOut : Nat → Option String) (K : String) (h : c.dedupKey ≠ K) :
    countKey (dispatchCandidate cfg db triggeredAt idx c dOut eOut).1.alerts
        K = countKey db.alerts K := by
  rcases hdo : dOut idx with _ | msg1 <;> rcases heo : eOut idx with _ | msg2 <;>
    by_cases hw : pyStrip cfg.outputs.discordWebhook = "" <;>
    by_cases he : pyStrip cfg.outputs.emailTo = "" <;>
      simp [dispatchCandidate, hdo, heo, hw, he, recordAlert, recordError,
        countKey, List.countP_append, h]

theorem dispatchAllGo_countKey (cfg : StarlinkerConfig) (triggeredAt : Int)
    (dOut eOut : Nat → Option String) (K : String) :
    ∀ (cands : List AlertCandidate) (idx : Nat) (db : Db),
      (∀ c ∈ cands, c.dedupKey ≠ K) →
      countKey (dispatchAllGo cfg triggeredAt dOut eOut cands idx db).2.1.alerts
          K = countKey db.alerts K := by
  intro cands
  induction cands with
  | nil => intro idx db _; rfl
  | cons c cs ih =>
      intro idx db hall
      simp only [dispatchAllGo]
      rw [ih (idx + 1) _ (fun q hq => hall q (List.mem_cons_of_mem _ hq))]
      exact dispatchCandidate_countKey cfg db triggeredAt idx c dOut eOut K
        (hall c (List.mem_cons_self _ _))

/-- Claim C6: at-most-once alert persistence per dedup key.  Once an alert
row with dedup key K exists, a subsequent AlertsService.run never records
another row with K: collect_candidates skips every signal whose dedup key
already has a row, so whatever the channel outcomes, the number of alert
rows with key K is unchanged by the run. -/
theorem C6_alert_dedup :
    ∀ (cfg : StarlinkerConfig) (db : Db) (triggeredAt : Int)
      (tz : String → Option Int) (window minPriority : Int)
      (dOut eOut : Nat → Option String) (K : String)
      (r : RunResult) (db2 : Db) (tr : List (String × Nat)),
      alertExists db K = true →
      runLocked cfg db triggeredAt tz window minPriority dOut eOut =
        some (r, db2, tr) →
      countKey db2.alerts K = countKey db.alerts K := by
  intro cfg db triggeredAt tz window minPriority dOut eOut K r db2 tr hex hrun
  unfold runLocked at hrun
  by_cases hc :
      (collectCandidates db triggeredAt window minPriority).isEmpty = true
  · rw [if_pos hc] at hrun
    cases hrun
    rfl
  · rw [if_neg hc] at hrun
    cases hq : inQuietHours tz cfg triggeredAt with
    | none => rw [hq] at hrun; cases hrun
    | some b =>
        rw [hq] at hrun
        cases b with
        | true =>
            simp only at hrun
            cases hrun
            rfl
        | false =>
            simp only at hrun
            cases hrun
            apply dispatchAllGo_countKey
            intro c hcmem hckey
            have := collect_not_exists db triggeredAt window minPriority
              c hcmem
            rw [hckey] at this
            rw [hex] at this
            cases this

/-- Claim C6 witness: a database already holding an alert row for the
signal's dedup key; the run records nothing further under that key. -/
theorem C6_alert_dedup_witness :
    alertExists
        ⟨[⟨"src", "LIVE Hotfix", "https://u", 10, 10, none, none, [], 90⟩],
          [⟨5, "signal", "LIVE Hotfix", some "https://u", ["discord"],
            "src:https://u"⟩], [], []⟩ "src:https://u" = true ∧
    countKey
        (⟨[⟨"src", "LIVE Hotfix", "https://u", 10, 10, none, none, [], 90⟩],
          [⟨5, "signal", "LIVE Hotfix", some "https://u", ["discord"],
            "src:https://u"⟩], [], []⟩ : Db).alerts "src:https://u" =
      countKey
        (⟨[⟨"src", "LIVE Hotfix", "https://u", 10, 10, none, none, [], 90⟩],
          [⟨5, "signal", "LIVE Hotfix", some "https://u", ["discord"],
            "src:https://u"⟩], [], []⟩ : Db).alerts "src:https://u" :=
  ⟨by rfl,
    C6_alert_dedup ⟨"UTC", [], ⟨"https://h", ""⟩⟩
      ⟨[⟨"src", "LIVE Hotfix", "https://u", 10, 10, none, none, [], 90⟩],
        [⟨5, "signal", "LIVE Hotfix", some "https://u", ["discord"],
          "src:https://u"⟩], [], []⟩
      20 (fun _ => none) 1440 60 (fun _ => none) (fun _ => none)
      "src:https://u" ⟨0, false⟩
      ⟨[⟨"src", "LIVE Hotfix", "https://u", 10, 10, none, none, [], 90⟩],
        [⟨5, "signal", "LIVE Hotfix", some "https://u", ["discord"],
          "src:https://u"⟩], [], []⟩
      [] (by rfl) (by rfl)⟩


/-- Claim C1 (spec-modelled): snooze precedence.  Whenever the snooze
instant is set and the run's trigger time is before it, the modelled run
returns alerts 0 and suppressed true, leaves the database untouched and
dispatches to no channel — for every configuration (hence regardless of
quiet hours) and every set of stored signals and channel outcomes. -/
theorem C1_snooze_precedence :
    ∀ (t triggeredAt : Int) (cfg : StarlinkerConfig) (db : Db)
      (tz : String → Option Int) (window minPriority : Int)
      (dOut eOut : Nat → Option String),
      triggeredAt < t →
      runWithSnooze (some t) cfg db triggeredAt tz window minPriority dOut
        eOut = some (⟨0, true⟩, db, []) := by
  intro t triggeredAt cfg db tz window minPriority dOut eOut h
  simp [runWithSnooze, h]

/-- Claim C1 witness: a snoozed run over a database holding a hot signal,
with quiet hours inactive, still returns suppressed with no dispatch. -/
theorem C1_snooze_precedence_witness :
    runWithSnooze (some 2000) ⟨"UTC", ["00:00", "23:59"], ⟨"https://h", ""⟩⟩
        ⟨[⟨"src", "LIVE Patch", "https://u", 1890, 1895, none, none,
          ["live"], 80⟩], [], [], []⟩
        1900 (fun _ => none) 1440 60 (fun _ => none) (fun _ => none) =
      some (⟨0, true⟩,
        ⟨[⟨"src", "LIVE Patch", "https://u", 1890, 1895, none, none,
          ["live"], 80⟩], [], [], []⟩, []) :=
  C1_snooze_precedence 2000 1900
    ⟨"UTC", ["00:00", "23:59"], ⟨"https://h", ""⟩⟩
    ⟨[⟨"src", "LIVE Patch", "https://u", 1890, 1895, none, none,
      ["live"], 80⟩], [], [], []⟩
    (fun _ => none) 1440 60 (fun _ => none) (fun _ => none) (by decide)

/-- Claim C7: the quiet-hours predicate.  With a two-entry window parsed as
local times in the configured zone (falling back to UTC when the zone is
unknown), the moment is quiet per the plain interval when start is at most
end and per the midnight-wrapping disjunction otherwise; and concretely,
for the window 23:00 to 07:00, 23:30 and 06:59 local are quiet while 08:00
is not. -/
theorem C7_quiet_hours :
    (∀ (tz : String → Option Int) (cfg : StarlinkerConfig) (moment : Int)
      (s e : String) (st en : TimeHM),
      cfg.quietHours = [s, e] →
      parseTime s = some st → parseTime e = some en →
      inQuietHours tz cfg moment =
        some
          (if timeLe st en then
            timeLe st (localTimeOf tz cfg.timezone moment) &&
              timeLt (localTimeOf tz cfg.timezone moment) en
          else
            timeLe st (localTimeOf tz cfg.timezone moment) ||
              timeLt (localTimeOf tz cfg.timezone moment) en)) ∧
    inQuietHours (fun _ => none)
        ⟨"UTC", ["23:00", "07:00"], ⟨"", ""⟩⟩ (23 * 60 + 30) = some true ∧
    inQuietHours (fun _ => none)
        ⟨"UTC", ["23:00", "07:00"], ⟨"", ""⟩⟩ (6 * 60 + 59) = some true ∧
    inQuietHours (fun _ => none)
        ⟨"UTC", ["23:00", "07:00"], ⟨"", ""⟩⟩ (8 * 60) = some false := by
  refine ⟨?_, by rfl, by rfl, by rfl⟩
  intro tz cfg moment s e st en hq hs he
  unfold inQuietHours
  rw [hq]
  by_cases hle : timeLe st en = true
  · simp [hs, he, hle]
  · simp [hs, he, hle]

/-- Claim C7 witness: the characterization applied to the 23:00 to 07:00
window at 23:30 UTC under an unknown timezone (exercising the UTC
fallback). -/
theorem C7_quiet_hours_witness :
    inQuietHours (fun _ => none) ⟨"UTC", ["23:00", "07:00"], ⟨"", ""⟩⟩
        1410 =
      some
        (if timeLe ⟨23, 0⟩ ⟨7, 0⟩ then
          timeLe ⟨23, 0⟩ (localTimeOf (fun _ => none) "UTC" 1410) &&
            timeLt (localTimeOf (fun _ => none) "UTC" 1410) ⟨7, 0⟩
        else
          timeLe ⟨23, 0⟩ (localTimeOf (fun _ => none) "UTC" 1410) ||
            timeLt (localTimeOf (fun _ => none) "UTC" 1410) ⟨7, 0⟩) :=
  C7_quiet_hours.1 (fun _ => none) ⟨"UTC", ["23:00", "07:00"], ⟨"", ""⟩⟩
    1410 "23:00" "07:00" ⟨23, 0⟩ ⟨7, 0⟩ rfl (by rfl) (by rfl)

/-- Claim C3 counterexample: a digest run whose Discord POST returns
status 500.  Contrary to the claim, the response status is never
inspected: discord is counted as delivered, no error row is recorded, and
a digest row is persisted even though no other channel is configured. -/
theorem C3_digest_counterexample :
    digestRunLocked "daily" ⟨"UTC", [], ⟨"https://hook", ""⟩⟩
        ⟨[⟨"rsi", "T", "https://u", 0, 0, none, none, [], 80⟩], [], [], []⟩
        0 (PostOutcome.ret 500) none =
      some (⟨"daily", true, 1, ["discord"]⟩,
        ⟨[⟨"rsi", "T", "https://u", 0, 0, none, none, [], 80⟩], [],
          [⟨0, "daily"⟩], []⟩) := by rfl

/-- Claim C3 as amended: in DigestService run_digest the Discord response
status is never inspected — the run's outcome is identical for every
returned status.  A POST that returns, with any status, counts as
delivery: discord is included, sent is true, no error row is recorded and
a digest row is persisted; only a POST that raises counts as channel
failure — an error row tagged discord is recorded, and with no email
channel configured nothing is delivered, sent is false and no digest row
is persisted. -/
theorem C3_digest_status_ignored :
    (∀ (cfg : StarlinkerConfig) (db : Db) (dt : String) (t : Int)
      (s1 s2 : Nat) (eOut : Option String),
      digestRunLocked dt cfg db t (PostOutcome.ret s1) eOut =
        digestRunLocked dt cfg db t (PostOutcome.ret s2) eOut) ∧
    (∀ (cfg : StarlinkerConfig) (db : Db) (dt : String) (t w : Int)
      (status : Nat) (msg : String) (eOut : Option String),
      windowFor dt = some w →
      fetchSignals db (t - w) ≠ [] →
      pyStrip cfg.outputs.discordWebhook ≠ "" →
      pyStrip cfg.outputs.emailTo = "" →
      digestRunLocked dt cfg db t (PostOutcome.ret status) eOut =
        some (⟨dt, true, (fetchSignals db (t - w)).length, ["discord"]⟩,
          recordDigest db dt t) ∧
      digestRunLocked dt cfg db t (PostOutcome.exc msg) eOut =
        some (⟨dt, false, (fetchSignals db (t - w)).length, []⟩,
          recordError db "digest.dispatch" msg (some "discord"))) := by
  constructor
  · intro cfg db dt t s1 s2 eOut
    rfl
  · intro cfg db dt t w status msg eOut hw hsig hweb hem
    have hemp : (fetchSignals db (t - w)).isEmpty = false := by
      rw [List.isEmpty_eq_false_iff_exists_mem]
      cases hfs : fetchSignals db (t - w) with
      | nil => exact absurd hfs hsig
      | cons a l => exact ⟨a, by simp⟩
    constructor
    · unfold digestRunLocked
      rw [hw]
      simp [hemp, hweb, hem]
    · unfold digestRunLocked
      rw [hw]
      simp [hemp, hweb, hem]

/-- Claim C3 witness: the amended statement applied to a one-signal
database with a webhook and no email channel. -/
theorem C3_digest_status_ignored_witness :
    digestRunLocked "daily" ⟨"UTC", [], ⟨"https://hook", ""⟩⟩
        ⟨[⟨"rsi", "T", "https://u", 0, 0, none, none, [], 80⟩], [], [], []⟩
        0 (PostOutcome.ret 500) none =
      some (⟨"daily", true,
          (fetchSignals
            ⟨[⟨"rsi", "T", "https://u", 0, 0, none, none, [], 80⟩], [],
              [], []⟩ (0 - 1440)).length, ["discord"]⟩,
        recordDigest
          ⟨[⟨"rsi", "T", "https://u", 0, 0, none, none, [], 80⟩], [], [],
            []⟩ "daily" 0) ∧
    digestRunLocked "daily" ⟨"UTC", [], ⟨"https://hook", ""⟩⟩
        ⟨[⟨"rsi", "T", "https://u", 0, 0, none, none, [], 80⟩], [], [], []⟩
        0 (PostOutcome.exc "boom") none =
      some (⟨"daily", false,
          (fetchSignals
            ⟨[⟨"rsi", "T", "https://u", 0, 0, none, none, [], 80⟩], [],
              [], []⟩ (0 - 1440)).length, []⟩,
        recordError
          ⟨[⟨"rsi", "T", "https://u", 0, 0, none, none, [], 80⟩], [], [],
            []⟩ "digest.dispatch" "boom" (some "discord")) :=
  C3_digest_status_ignored.2 ⟨"UTC", [], ⟨"https://hook", ""⟩⟩
    ⟨[⟨"rsi", "T", "https://u", 0, 0, none, none, [], 80⟩], [], [], []⟩
    "daily" 0 1440 500 "boom" none (by rfl) (by decide) (by decide) (by rfl)

theorem countUrl_eq_zero (t : List StoredSignal) (u : String)
    (h : ∀ r ∈ t, r.url ≠ u) : countUrl t u = 0 := by
  unfold countUrl
  rw [List.countP_eq_zero]
  intro r hr
  simp [h r hr]

theorem countUrl_unique :
    ∀ t : List StoredSignal, uniqueUrls t →
      ∀ u, countUrl t u = if urlExists t u then 1 else 0 := by
  intro t
  induction t with
  | nil => intro _ u; simp [countUrl, urlExists]
  | cons r t ih =>
      intro hu u
      have hr : ∀ x ∈ t, r.url ≠ x.url := (List.pairwise_cons.mp hu).1
      have ht := ih (List.pairwise_cons.mp hu).2
      unfold countUrl urlExists
      rw [List.countP_cons, List.any_cons]
      by_cases hru : r.url = u
      · have hz : countUrl t u = 0 := by
          apply countUrl_eq_zero
          intro x hx
          rw [← hru]
          exact (hr x hx).symm
        unfold countUrl at hz
        simp [hz, hru]
      · have hb : (r.url == u) = false := beq_eq_false_iff_ne.mpr hru
        unfold countUrl urlExists at ht
        simp [hb, ht u]

theorem storeSignalsGo_facts :
    ∀ (rows table : List StoredSignal) (n : Nat),
      (storeSignalsGo table rows n).2 + table.length =
        n + (storeSignalsGo table rows n).1.length ∧
      (uniqueUrls table →
        uniqueUrls (storeSignalsGo table rows n).1 ∧
        ∀ u, countUrl (storeSignalsGo table rows n).1 u =
          if urlExists table u || rows.any (fun r => r.url == u) then 1
          else 0) := by
  intro rows
  induction rows with
  | nil =>
      intro table n
      refine ⟨by simp [storeSignalsGo, Nat.add_comm], fun hu => ⟨hu, ?_⟩⟩
      intro u
      simp only [storeSignalsGo, List.any_nil, Bool.or_false]
      exact countUrl_unique table hu u
  | cons r rs ih =>
      intro table n
      by_cases hex : urlExists table r.url = true
      · have hgo : storeSignalsGo table (r :: rs) n =
            storeSignalsGo table rs n := by
          simp [storeSignalsGo, hex]
        rw [hgo]
        obtain ⟨ih1, ih2⟩ := ih table n
        refine ⟨ih1, fun hu => ⟨(ih2 hu).1, ?_⟩⟩
        intro u
        rw [(ih2 hu).2 u, List.any_cons]
        by_cases hru : r.url = u
        · have : urlExists table u = true := hru ▸ hex
          simp [this]
        · have hb : (r.url == u) = false := beq_eq_false_iff_ne.mpr hru
          simp [hb]
      · have hgo : storeSignalsGo table (r :: rs) n =
            storeSignalsGo (table ++ [r]) rs (n + 1) := by
          simp [storeSignalsGo, hex]
        rw [hgo]
        obtain ⟨ih1, ih2⟩ := ih (table ++ [r]) (n + 1)
        have hlen : (table ++ [r]).length = table.length + 1 := by simp
        refine ⟨by omega, fun hu => ?_⟩
        have hnew : uniqueUrls (table ++ [r]) := by
          unfold uniqueUrls
          rw [List.pairwise_append]
          refine ⟨hu, List.pairwise_singleton _ _, ?_⟩
          intro a ha b hb
          have hb' : b = r := by simpa using hb
          subst hb'
          intro hcon
          apply hex
          unfold urlExists
          rw [List.any_eq_true]
          exact ⟨a, ha, by simp [hcon]⟩
        refine ⟨(ih2 hnew).1, ?_⟩
        intro u
        rw [(ih2 hnew).2 u]
        have hux : urlExists (table ++ [r]) u =
            (urlExists table u || (r.url == u)) := by
          unfold urlExists
          rw [List.any_append]
          simp
        rw [hux, List.any_cons]
        by_cases h1 : urlExists table u = true <;>
          by_cases h2 : (r.url == u) = true <;>
            simp [h1, h2]

/-- Claim C8: store_signals attempts a per-row insert, silently skips any
row whose url is already present (the unique index on signals.url), and
returns the number of rows actually inserted (the growth of the table);
consequently, starting from any table satisfying the uniqueness invariant,
after storing any batch every url that was stored or already present has
exactly one row, and the invariant is preserved. -/
theorem C8_store_signals :
    ∀ (table rows : List StoredSignal),
      (storeSignals table rows).2 + table.length =
        (storeSignals table rows).1.length ∧
      (uniqueUrls table →
        uniqueUrls (storeSignals table rows).1 ∧
        ∀ u, countUrl (storeSignals table rows).1 u =
          if urlExists table u || rows.any (fun r => r.url == u) then 1
          else 0) := by
  intro table rows
  obtain ⟨h1, h2⟩ := storeSignalsGo_facts rows table 0
  exact ⟨by unfold storeSignals; omega, h2⟩

/-- Claim C8 witness: two signals sharing one url stored into an empty
table leave exactly one row with that url, and the returned count is the
table growth. -/
theorem C8_store_signals_witness :
    countUrl
        (storeSignals []
          [⟨"a", "t1", "https://u", 0, 0, none, none, [], 0⟩,
            ⟨"b", "t2", "https://u", 1, 1, none, none, [], 0⟩]).1
        "https://u" =
      (if urlExists [] "https://u" ||
          [(⟨"a", "t1", "https://u", 0, 0, none, none, [], 0⟩ :
              StoredSignal),
            ⟨"b", "t2", "https://u", 1, 1, none, none, [], 0⟩].any
            (fun r => r.url == "https://u") then 1 else 0) ∧
    countUrl
        (storeSignals []
          [⟨"a", "t1", "https://u", 0, 0, none, none, [], 0⟩,
            ⟨"b", "t2", "https://u", 1, 1, none, none, [], 0⟩]).1
        "https://u" = 1 ∧
    (storeSignals []
        [⟨"a", "t1", "https://u", 0, 0, none, none, [], 0⟩,
          ⟨"b", "t2", "https://u", 1, 1, none, none, [], 0⟩]).2 = 1 :=
  ⟨((C8_store_signals []
        [⟨"a", "t1", "https://u", 0, 0, none, none, [], 0⟩,
          ⟨"b", "t2", "https://u", 1, 1, none, none, [], 0⟩]).2
      List.Pairwise.nil).2 "https://u", by rfl, by rfl⟩

end Starlinker
